import Mathlib

/-!
Verification of the document indexing and retrieval engine of the
code_assistant_mcp repository: the chunker (rag_builder.chunk_text), the
ChromaDB and PGVector store managers (app/db_manager.py), the ingestion and
query pipeline (app/database.py), and the flat FAISS / relational pgvector
query paths of rag_builder.py.
-/

/-- Association-list update modelling a Python dict assignment d at key k set
to v: replaces the value when the key is present, otherwise appends the
binding at the end, matching Python dict insertion-order semantics. -/
def dictSet (k v : String) (m : List (String × String)) : List (String × String) :=
  if (m.lookup k).isSome then
    m.map (fun p => if p.1 = k then (k, v) else p)
  else m ++ [(k, v)]

/-- Squared Euclidean distance between two integer vectors; order-equivalent
to the Euclidean (L2) metric used by faiss IndexFlatL2 and by the pgvector
distance operator, since squaring is monotone on nonnegative reals. -/
def dist2 (u v : List Int) : Int :=
  ((u.zip v).map (fun p => (p.1 - p.2) * (p.1 - p.2))).sum

/-- Boolean comparison by an integer key. -/
def keyLe {α : Type} (key : α → Int) (a b : α) : Bool :=
  decide (key a ≤ key b)

/-- Insert a in front of the first element b with le a b; keeps a list sorted
and is stable (a lands before later equal elements). -/
def ordIns {α : Type} (le : α → α → Bool) (a : α) : List α → List α
  | [] => [a]
  | b :: l => if le a b then a :: b :: l else b :: ordIns le a l

/-- Stable insertion sort by a Boolean comparison. -/
def sortLe {α : Type} (le : α → α → Bool) : List α → List α
  | [] => []
  | a :: l => ordIns le a (sortLe le l)

theorem ordIns_perm {α : Type} (le : α → α → Bool) (a : α) (l : List α) :
    (ordIns le a l).Perm (a :: l) := by
  induction l with
  | nil => exact List.Perm.refl _
  | cons b t ih =>
    by_cases h : le a b = true
    · simp [ordIns, h]
    · simp only [ordIns, if_neg h]
      have h1 : (b :: ordIns le a t).Perm (b :: a :: t) := List.Perm.cons b ih
      exact h1.trans (List.Perm.swap a b t)

theorem sortLe_perm {α : Type} (le : α → α → Bool) (l : List α) :
    (sortLe le l).Perm l := by
  induction l with
  | nil => exact List.Perm.refl _
  | cons a t ih =>
    exact (ordIns_perm le a (sortLe le t)).trans (List.Perm.cons a ih)

theorem sortLe_length {α : Type} (le : α → α → Bool) (l : List α) :
    (sortLe le l).length = l.length :=
  (sortLe_perm le l).length_eq

theorem sortLe_mem {α : Type} (le : α → α → Bool) (x : α) (l : List α) :
    x ∈ sortLe le l ↔ x ∈ l :=
  (sortLe_perm le l).mem_iff

theorem ordIns_pairwise {α : Type} (key : α → Int) (a : α) (l : List α)
    (h : List.Pairwise (fun x y => key x ≤ key y) l) :
    List.Pairwise (fun x y => key x ≤ key y) (ordIns (keyLe key) a l) := by
  induction l with
  | nil => simp [ordIns]
  | cons b t ih =>
    rw [List.pairwise_cons] at h
    by_cases hab : keyLe key a b = true
    · have hab2 : key a ≤ key b := by
        simpa [keyLe] using hab
      simp only [ordIns, if_pos hab]
      rw [List.pairwise_cons]
      constructor
      · intro x hx
        rcases List.mem_cons.1 hx with hx1 | hx1
        · exact hx1 ▸ hab2
        · exact le_trans hab2 (h.1 x hx1)
      · exact List.pairwise_cons.2 h
    · have hab2 : key b ≤ key a := by
        simp only [keyLe, decide_eq_true_eq] at hab
        exact le_of_not_le hab
      simp only [ordIns, if_neg hab]
      rw [List.pairwise_cons]
      constructor
      · intro x hx
        have hx2 : x ∈ a :: t := ((ordIns_perm (keyLe key) a t).mem_iff).1 hx
        rcases List.mem_cons.1 hx2 with hx3 | hx3
        · exact hx3 ▸ hab2
        · exact h.1 x hx3
      · exact ih h.2

theorem sortLe_pairwise {α : Type} (key : α → Int) (l : List α) :
    List.Pairwise (fun x y => key x ≤ key y) (sortLe (keyLe key) l) := by
  induction l with
  | nil => simp [sortLe]
  | cons a t ih => exact ordIns_pairwise key a _ ih

theorem lookup_cons (k k1 v1 : String) (t : List (String × String)) :
    List.lookup k ((k1, v1) :: t) = if k = k1 then some v1 else List.lookup k t := by
  by_cases h : k = k1
  · subst h; simp [List.lookup]
  · have hb : (k == k1) = false := beq_eq_false_iff_ne.2 h
    simp [List.lookup, hb, h]

theorem lookup_map_set (k v : String) (m : List (String × String)) :
    List.lookup k (m.map (fun p => if p.1 = k then (k, v) else p))
      = if (m.lookup k).isSome then some v else none := by
  induction m with
  | nil => simp
  | cons p t ih =>
    obtain ⟨k1, v1⟩ := p
    by_cases h : k1 = k
    · subst h
      simp [lookup_cons, ih]
    · have h2 : ¬ k = k1 := fun hc => h hc.symm
      simp only [List.map_cons]
      rw [if_neg h]
      rw [lookup_cons, if_neg h2, ih, lookup_cons, if_neg h2]

theorem lookup_append_single (k v : String) (m : List (String × String))
    (h : m.lookup k = none) : (m ++ [(k, v)]).lookup k = some v := by
  induction m with
  | nil => simp [lookup_cons]
  | cons p t ih =>
    obtain ⟨k1, v1⟩ := p
    rw [lookup_cons] at h
    by_cases h1 : k = k1
    · rw [if_pos h1] at h
      exact absurd h (by simp)
    · rw [if_neg h1] at h
      simp only [List.cons_append]
      rw [lookup_cons, if_neg h1]
      exact ih h

theorem lookup_dictSet (k v : String) (m : List (String × String)) :
    (dictSet k v m).lookup k = some v := by
  by_cases h : (m.lookup k).isSome
  · simp only [dictSet, if_pos h]
    rw [lookup_map_set, if_pos h]
  · simp only [dictSet, if_neg h]
    exact lookup_append_single k v m (Option.not_isSome_iff_eq_none.1 h)

/-!
The chunker: rag_builder.chunk_text. The source splits the text on
whitespace (Python str.split with no argument), then runs a while loop that
emits the slice words[current_pos : current_pos + chunk_size] and advances
current_pos by chunk_size - overlap until current_pos reaches the word
count. The loop is modelled with explicit fuel because the source loop does
not terminate when overlap >= chunk_size.
-/

/-- Auxiliary for pyWords: cs is the remaining characters, cur holds the
reversed characters of the word being accumulated. -/
def splitAux : List Char → List Char → List String
  | [], [] => []
  | [], cur => [String.mk cur.reverse]
  | c :: cs, cur =>
    if c.isWhitespace then
      if cur.isEmpty then splitAux cs [] else String.mk cur.reverse :: splitAux cs []
    else splitAux cs (c :: cur)

/-- Python str.split() with no argument, as used in rag_builder.chunk_text:
split on runs of whitespace, dropping empty fragments. -/
def pyWords (text : String) : List String :=
  splitAux text.data []

/-- Python list slice xs[lo:hi]: negative bounds count from the end and all
bounds are clamped into range. -/
def pySlice (xs : List String) (lo hi : Int) : List String :=
  let n : Int := xs.length
  let l := if lo < 0 then max (n + lo) 0 else min lo n
  let h := if hi < 0 then max (n + hi) 0 else min hi n
  (xs.drop l.toNat).take (h.toNat - l.toNat)

/-- One-to-one model of the while loop of rag_builder.chunk_text, with
explicit fuel: none means the loop has not terminated within fuel
iterations. The position is an integer since chunk_size - overlap can be
negative in the source. -/
def chunkLoop (fuel : Nat) (words : List String) (size overlap : Nat)
    (pos : Int) (acc : List String) : Option (List String) :=
  match fuel with
  | 0 => none
  | Nat.succ f =>
    if pos < (words.length : Int) then
      chunkLoop f words size overlap (pos + ((size : Int) - (overlap : Int)))
        (acc ++ [String.intercalate " " (pySlice words pos (pos + (size : Int)))])
    else some acc

/-- rag_builder.chunk_text: returns the empty list on empty input, otherwise
runs the chunking loop from position 0 with an empty accumulator. -/
def chunk_textF (fuel : Nat) (text : String) (size overlap : Nat) :
    Option (List String) :=
  let words := pyWords text
  if words.isEmpty then some [] else chunkLoop fuel words size overlap 0 []

/-- The successive token windows of the chunking loop in the terminating
regime: each window takes size tokens and the next window starts step tokens
later. Fuel bounds the number of windows; words.length is always enough fuel
when step is at least 1. -/
def windowsAux (fuel : Nat) (ws : List String) (size step : Nat) :
    List (List String) :=
  match fuel, ws with
  | 0, _ => []
  | _ + 1, [] => []
  | f + 1, w :: t => ((w :: t).take size) :: windowsAux f ((w :: t).drop step) size step

/-- Token windows of chunk_text for a given text in the overlap < size
regime. -/
def chunkWindows (words : List String) (size overlap : Nat) :
    List (List String) :=
  windowsAux words.length words size (size - overlap)

/-- Total form of chunk_text in the overlap < size regime; proved equal to
the fueled loop by chunk_textF_eq below. -/
def chunk_text (text : String) (size overlap : Nat) : List String :=
  (chunkWindows (pyWords text) size overlap).map (String.intercalate " ")

theorem windowsAux_nil (fuel size step : Nat) :
    windowsAux fuel [] size step = [] := by
  cases fuel <;> rfl

theorem pySlice_coe (xs : List String) (a b : Nat) :
    pySlice xs (a : Int) (b : Int) = (xs.drop a).take (b - a) := by
  simp only [pySlice]
  have h1 : ¬ ((a : Int) < 0) := by omega
  have h2 : ¬ ((b : Int) < 0) := by omega
  rw [if_neg h1, if_neg h2]
  have h3 : (min (a : Int) (xs.length : Int)).toNat = min a xs.length := by omega
  have h4 : (min (b : Int) (xs.length : Int)).toNat = min b xs.length := by omega
  rw [h3, h4]
  by_cases h5 : a ≤ xs.length
  · have h6 : min a xs.length = a := min_eq_left h5
    rw [h6]
    have h7 : xs.drop a = (xs.drop a).take ((xs.drop a).length) := by
      rw [List.take_length]
    by_cases h8 : b ≤ xs.length
    · rw [min_eq_left h8]
    · rw [min_eq_right (le_of_not_le h8)]
      have h9 : (xs.drop a).length = xs.length - a := List.length_drop a xs
      rw [List.take_of_length_le, List.take_of_length_le] <;> omega
  · have h6 : xs.length ≤ a := le_of_not_le h5
    rw [min_eq_right h6]
    have h7 : xs.drop xs.length = [] := by
      rw [List.drop_of_length_le (le_refl _)]
    have h8 : xs.drop a = [] := by
      rw [List.drop_of_length_le h6]
    rw [h7, h8]
    simp

theorem windowsAux_fuel (size step : Nat) (hstep : 1 ≤ step) :
    ∀ (f g : Nat) (ws : List String), ws.length ≤ f → ws.length ≤ g →
      windowsAux f ws size step = windowsAux g ws size step := by
  intro f
  induction f with
  | zero =>
    intro g ws hf hg
    have hnil : ws = [] := List.length_eq_zero.1 (Nat.le_zero.1 hf)
    subst hnil
    rw [windowsAux_nil, windowsAux_nil]
  | succ f ih =>
    intro g ws hf hg
    cases ws with
    | nil => rw [windowsAux_nil, windowsAux_nil]
    | cons w t =>
      cases g with
      | zero =>
        simp only [List.length_cons] at hg
        omega
      | succ g =>
        simp only [windowsAux]
        congr 1
        apply ih
        · rw [List.length_drop]
          simp only [List.length_cons] at hf ⊢
          omega
        · rw [List.length_drop]
          simp only [List.length_cons] at hg ⊢
          omega

theorem chunkLoop_eq_windows (words : List String) (size overlap : Nat)
    (hso : overlap < size) :
    ∀ (f pos : Nat) (acc : List String), words.length - pos + 1 ≤ f →
      chunkLoop f words size overlap (pos : Int) acc
        = some (acc ++ (windowsAux f (words.drop pos) size (size - overlap)).map
            (String.intercalate " ")) := by
  intro f
  induction f with
  | zero => intro pos acc hf; omega
  | succ f ih =>
    intro pos acc hf
    by_cases hp : pos < words.length
    · have hguard : ((pos : Int) < (words.length : Int)) := by exact_mod_cast hp
      simp only [chunkLoop, if_pos hguard]
      have hpos2 : (pos : Int) + ((size : Int) - (overlap : Int))
          = ((pos + (size - overlap) : Nat) : Int) := by omega
      have hsum : ((pos : Int) + (size : Int)) = ((pos + size : Nat) : Int) := by
        push_cast
        ring
      have hslice : pySlice words (pos : Int) ((pos : Int) + (size : Int))
          = (words.drop pos).take size := by
        rw [hsum, pySlice_coe]
        congr 1
        omega
      rw [hpos2, hslice, ih (pos + (size - overlap)) _ (by omega)]
      obtain ⟨w, t, hwt⟩ := List.exists_cons_of_ne_nil
        (l := words.drop pos) (by
          intro hnil
          rw [List.drop_eq_nil_iff] at hnil
          omega)
      have hunfold : windowsAux (f + 1) (words.drop pos) size (size - overlap)
          = (words.drop pos).take size
            :: windowsAux f (words.drop (pos + (size - overlap))) size (size - overlap) := by
        rw [hwt]
        simp only [windowsAux]
        rw [← hwt, List.drop_drop]
      rw [hunfold]
      simp [List.append_assoc]
    · have hguard : ¬ ((pos : Int) < (words.length : Int)) := by
        omega
      simp only [chunkLoop, if_neg hguard]
      rw [List.drop_of_length_le (by omega), windowsAux_nil]
      simp

theorem chunk_textF_eq (text : String) (size overlap f : Nat)
    (hso : overlap < size) (hf : (pyWords text).length + 1 ≤ f) :
    chunk_textF f text size overlap = some (chunk_text text size overlap) := by
  by_cases hw : (pyWords text).isEmpty
  · have hnil : pyWords text = [] := by
      rwa [List.isEmpty_iff] at hw
    simp [chunk_textF, hw, chunk_text, chunkWindows, hnil, windowsAux_nil]
  · simp only [chunk_textF, hw, Bool.false_eq_true, if_false]
    have h0 := chunkLoop_eq_windows (pyWords text) size overlap hso f 0 [] (by omega)
    rw [List.drop_zero] at h0
    have hc : ((0 : Nat) : Int) = (0 : Int) := rfl
    rw [hc] at h0
    rw [h0, chunk_text, chunkWindows]
    rw [windowsAux_fuel size (size - overlap) (by omega) f (pyWords text).length
      (pyWords text) (by omega) (le_refl _)]
    simp

theorem chunkLoop_nonterm (words : List String) (size overlap : Nat)
    (hso : size ≤ overlap) :
    ∀ (f : Nat) (pos : Int) (acc : List String), pos < (words.length : Int) →
      chunkLoop f words size overlap pos acc = none := by
  intro f
  induction f with
  | zero => intro pos acc hp; rfl
  | succ f ih =>
    intro pos acc hp
    simp only [chunkLoop, if_pos hp]
    apply ih
    omega

theorem windowsAux_cover (size step : Nat) (h1 : 1 ≤ step) (h2 : step ≤ size) :
    ∀ (f : Nat) (ws : List String), ws.length ≤ f →
      ∀ (i : Nat), i < ws.length →
        ∃ w ∈ windowsAux f ws size step, ws.getD i "" ∈ w := by
  intro f
  induction f with
  | zero =>
    intro ws hf i hi
    omega
  | succ f ih =>
    intro ws hf i hi
    cases ws with
    | nil => simp at hi
    | cons a t =>
      by_cases hsize : i < size
      · refine ⟨(a :: t).take size, by simp [windowsAux], ?_⟩
        have hit : i < ((a :: t).take size).length := by
          rw [List.length_take]
          omega
        have he : ((a :: t).take size).getD i "" = (a :: t).getD i "" := by
          rw [List.getD_eq_getElem _ _ hit, List.getD_eq_getElem _ _ hi]
          exact List.getElem_take _
        rw [← he]
        rw [List.getD_eq_getElem _ _ hit]
        exact List.getElem_mem hit
      · have hstep_le : step ≤ i := le_trans h2 (le_of_not_lt hsize)
        have hdl : ((a :: t).drop step).length = (a :: t).length - step :=
          List.length_drop _ _
        have hi3 : i - step < ((a :: t).drop step).length := by
          rw [hdl]
          simp only [List.length_cons] at hi ⊢
          omega
        obtain ⟨w, hw, hmem⟩ := ih ((a :: t).drop step)
          (by
            rw [hdl]
            simp only [List.length_cons] at hf ⊢
            omega)
          (i - step) hi3
        refine ⟨w, ?_, ?_⟩
        · simp only [windowsAux]
          exact List.mem_cons_of_mem _ hw
        · have e1 : ((a :: t).drop step).getD (i - step) "" = (a :: t).getD i "" := by
            rw [List.getD_eq_getElem _ _ hi3, List.getD_eq_getElem _ _ hi]
            rw [List.getElem_drop]
            congr 1
            omega
          rwa [e1] at hmem

theorem windowsAux_eq_cons (size step f : Nat) (ws : List String)
    (w : List String) (rest : List (List String))
    (heq : windowsAux f ws size step = w :: rest) :
    w = ws.take size ∧ ∃ f2, rest = windowsAux f2 (ws.drop step) size step := by
  match f, ws with
  | 0, ws => simp [windowsAux] at heq
  | f + 1, [] => simp [windowsAux] at heq
  | f + 1, a :: t =>
    simp only [windowsAux] at heq
    injection heq with hh ht
    exact ⟨hh.symm, f, ht.symm⟩

theorem windowsAux_pair (size step f : Nat) (ws : List String)
    (w1 w2 : List String) (l2 : List (List String))
    (heq : windowsAux f ws size step = w1 :: w2 :: l2) :
    w1.drop step = w2.take (size - step) := by
  obtain ⟨hw1, f2, h2⟩ := windowsAux_eq_cons size step f ws w1 (w2 :: l2) heq
  obtain ⟨hw2, f3, h3⟩ := windowsAux_eq_cons size step f2 (ws.drop step) w2 l2 h2.symm
  subst hw1
  subst hw2
  rw [List.drop_take, List.take_take, min_eq_left (Nat.sub_le size step)]

theorem windowsAux_succ_pairs (size step : Nat) :
    ∀ (l1 : List (List String)) (f : Nat) (ws : List String)
      (w1 w2 : List String) (l2 : List (List String)),
      windowsAux f ws size step = l1 ++ w1 :: w2 :: l2 →
      w1.drop step = w2.take (size - step) := by
  intro l1
  induction l1 with
  | nil =>
    intro f ws w1 w2 l2 heq
    rw [List.nil_append] at heq
    exact windowsAux_pair size step f ws w1 w2 l2 heq
  | cons x l1 ih =>
    intro f ws w1 w2 l2 heq
    rw [List.cons_append] at heq
    obtain ⟨hx, f2, h2⟩ := windowsAux_eq_cons size step f ws x (l1 ++ w1 :: w2 :: l2) heq
    exact ih f2 (ws.drop step) w1 w2 l2 h2.symm

/-- Number of tokens two successive chunks share: the largest n bounded by
both lengths such that the last n tokens of the first chunk equal the first
n tokens of the second. -/
def overlapTokens (xs ys : List String) : Nat :=
  ((List.range (min xs.length ys.length + 1)).filter
    (fun n => xs.drop (xs.length - n) == ys.take n)).foldr max 0

/-- C3 (amended): for overlap < size, the token windows of chunk_text cover
every whitespace-separated token of the text at least once, and every pair
of successive windows agrees on the shared region: the tokens of the first
window past position size - overlap equal the initial tokens of the next
window; when the earlier window is full (exactly size tokens) that shared
region has exactly overlap tokens. Pairs whose earlier window is partial,
possible only in the trailing part of the token list, may share fewer than
overlap tokens, which is the correction to the original claim. -/
theorem chunk_cover_overlap (text : String) (size overlap : Nat)
    (h : overlap < size) :
    (∀ (i : Nat), i < (pyWords text).length →
      ∃ w ∈ chunkWindows (pyWords text) size overlap, (pyWords text).getD i "" ∈ w)
    ∧ (∀ (l1 : List (List String)) (w1 w2 : List String) (l2 : List (List String)),
        chunkWindows (pyWords text) size overlap = l1 ++ w1 :: w2 :: l2 →
        w1.drop (size - overlap) = w2.take overlap
        ∧ (w1.length = size → (w1.drop (size - overlap)).length = overlap)) := by
  constructor
  · intro i hi
    exact windowsAux_cover size (size - overlap) (by omega) (by omega)
      (pyWords text).length (pyWords text) (le_refl _) i hi
  · intro l1 w1 w2 l2 heq
    constructor
    · have hp := windowsAux_succ_pairs size (size - overlap) l1 (pyWords text).length
        (pyWords text) w1 w2 l2 heq
      rwa [show size - (size - overlap) = overlap from by omega] at hp
    · intro hfull
      rw [List.length_drop, hfull]
      omega

/-- Witness for chunk_cover_overlap at text "a b c", size 2, overlap 1,
whose windows are the token lists a b, b c, c. -/
theorem chunk_cover_overlap_witness :
    (∃ w ∈ chunkWindows (pyWords "a b c") 2 1, (pyWords "a b c").getD 1 "" ∈ w)
    ∧ List.drop (2 - 1) ["a", "b"] = List.take 1 ["b", "c"] := by
  constructor
  · exact (chunk_cover_overlap "a b c" 2 1 (by decide)).1 1 (by decide)
  · exact ((chunk_cover_overlap "a b c" 2 1 (by decide)).2
      [] ["a", "b"] ["b", "c"] [["c"]] (by decide)).1

/-- Counterexample to C3 as stated: with text "a b c d", size 5, overlap 4,
chunks 0 and 1 are successive and chunk 1 is not the final chunk (there are
four chunks), yet the two share only 3 tokens rather than overlap = 4,
because chunk 0 is already partial: the text has fewer than size tokens. -/
theorem chunk_overlap_counterexample :
    (4 : Nat) < 5
    ∧ chunk_text "a b c d" 5 4 = ["a b c d", "b c d", "c d", "d"]
    ∧ chunk_textF 5 "a b c d" 5 4 = some ["a b c d", "b c d", "c d", "d"]
    ∧ chunkWindows (pyWords "a b c d") 5 4
        = [["a", "b", "c", "d"], ["b", "c", "d"], ["c", "d"], ["d"]]
    ∧ overlapTokens ["a", "b", "c", "d"] ["b", "c", "d"] = 3
    ∧ (3 : Nat) ≠ 4 := by
  refine ⟨by decide, by decide, by decide, by decide, by decide, by decide⟩

/-- C4 (amended): chunk_text on empty input returns the empty list under any
fuel; for overlap >= size on non-empty input the source performs no
validation and the loop never terminates, so no result and in particular no
InvalidConfiguration failure is ever produced; single-token input with
overlap < size yields exactly the single one-token chunk. -/
theorem chunk_text_edge_cases (text : String) (size overlap fuel : Nat) :
    (pyWords text = [] → chunk_textF fuel text size overlap = some [])
    ∧ (size ≤ overlap → ¬ pyWords text = [] →
        chunk_textF fuel text size overlap = none)
    ∧ (∀ w : String, pyWords text = [w] → overlap < size → 2 ≤ fuel →
        chunk_textF fuel text size overlap = some [w]) := by
  refine ⟨?_, ?_, ?_⟩
  · intro hnil
    simp [chunk_textF, hnil]
  · intro hso hne
    have hw : (pyWords text).isEmpty = false := by
      cases hE : (pyWords text).isEmpty
      · rfl
      · exact absurd (List.isEmpty_iff.1 hE) hne
    simp only [chunk_textF, hw, Bool.false_eq_true, if_false]
    apply chunkLoop_nonterm _ _ _ hso
    have hpos : 0 < (pyWords text).length := List.length_pos.2 hne
    omega
  · intro w hw hso hfuel
    rw [chunk_textF_eq text size overlap fuel hso (by rw [hw]; simpa using hfuel)]
    congr 1
    rw [chunk_text, chunkWindows, hw]
    have hone : windowsAux [w].length [w] size (size - overlap)
        = [[w].take size] := by
      simp only [List.length_cons, List.length_nil, windowsAux, windowsAux_nil]
    rw [hone]
    have htake : [w].take size = [w] := List.take_of_length_le (by simp; omega)
    rw [htake]
    rfl

/-- Witness for chunk_text_edge_cases: the three branches applied at empty
input, at an overlap equal to size, and at a single-token input. -/
theorem chunk_text_edge_cases_witness :
    chunk_textF 3 "" 3 1 = some []
    ∧ chunk_textF 7 "a b c" 1 1 = none
    ∧ chunk_textF 2 "tok" 2 1 = some ["tok"] := by
  refine ⟨(chunk_text_edge_cases "" 3 1 3).1 (by decide),
    (chunk_text_edge_cases "a b c" 1 1 7).2.1 (by decide) (by decide),
    (chunk_text_edge_cases "tok" 2 1 2).2.2 "tok" (by decide) (by decide) (by decide)⟩

/-- Counterexample to C4 as stated: with overlap = size = 1 on the non-empty
text "a b c" the source performs no validation, the loop position never
advances, and the call never returns under any fuel, so it does not fail
with an InvalidConfiguration error (no such error exists in the source): it
loops forever instead. -/
theorem chunk_text_no_error_counterexample :
    ¬ ∃ (f : Nat) (r : List String), chunk_textF f "a b c" 1 1 = some r := by
  rintro ⟨f, r, hr⟩
  have he : chunk_textF f "a b c" 1 1 = chunkLoop f (pyWords "a b c") 1 1 0 [] := rfl
  rw [he, chunkLoop_nonterm (pyWords "a b c") 1 1 (le_refl 1) f 0 [] (by decide)] at hr
  exact Option.noConfusion hr

/-!
The vector store managers of app/db_manager.py and the pipeline of
app/database.py. A langchain Document is text plus a string-keyed metadata
dict; a stored record is the backend id, the chunk text, and its metadata.
The Chroma server and the langchain PGVector store are external services;
their retrieval is modelled as exact nearest-neighbour search over the
stored records by squared distance between embeddings (the embedding
function is a parameter), per their documented behavior. Everything else
(ids, metadata handling, filters, deletion, existence checks, truncation
constants) is translated one-to-one from the source.
-/

/-- langchain Document: page content plus metadata dict. -/
structure Doc where
  page_content : String
  metadata : List (String × String)
deriving DecidableEq

/-- A record persisted in a vector store: backend id, chunk text, metadata. -/
structure Record where
  id : String
  document : String
  metadata : List (String × String)
deriving DecidableEq

namespace ChromaDBManager

/-- ChromaDBManager.add_documents: one collection.add call per document,
each with metadata binding source to file_path and id file_path-i. The
state after the whole loop appends all the records in order. -/
def add_documents (documents : List Doc) (file_path : String)
    (st : List Record) : List Record :=
  st ++ documents.enum.map (fun p =>
    Record.mk (file_path ++ "-" ++ toString p.1) p.2.page_content
      [("source", file_path)])

/-- State left by ChromaDBManager.add_documents when the loop raises after
j successful collection.add calls: only the first j records are persisted,
since each record is sent in its own call. -/
def add_documents_fail (documents : List Doc) (file_path : String) (j : Nat)
    (st : List Record) : List Record :=
  st ++ (documents.take j).enum.map (fun p =>
    Record.mk (file_path ++ "-" ++ toString p.1) p.2.page_content
      [("source", file_path)])

/-- ChromaDBManager.get_all_documents: collection.get returns every record. -/
def get_all_documents (st : List Record) : List Record :=
  st

/-- ChromaDBManager.delete_documents: collection.delete with a metadata
filter removes exactly the records whose source equals file_path. -/
def delete_documents (file_path : String) (st : List Record) : List Record :=
  st.filter (fun r => !(r.metadata.lookup "source" == some file_path))

/-- ChromaDBManager.document_exists: collection.get with the source filter,
true iff the returned id list is non-empty. -/
def document_exists (file_path : String) (st : List Record) : Bool :=
  !(st.filter (fun r => r.metadata.lookup "source" == some file_path)).isEmpty

/-- ChromaDBManager.query_documents: the Chroma server embeds the query text
and returns the n_results nearest stored records; modelled as sorting the
records by squared embedding distance and clamping to n_results. -/
def query_documents (embed : String → List Int) (query_text : String)
    (n_results : Nat) (st : List Record) : List Record :=
  (sortLe (keyLe (fun r => dist2 (embed query_text) (embed r.document))) st).take
    n_results

end ChromaDBManager

namespace PGVectorManager

/-- langchain PGVector similarity_search with an optional metadata source
filter: the matching stored records sorted by squared embedding distance to
the embedded query, clamped to k. -/
def similarity_search (embed : String → List Int) (query : String) (k : Nat)
    (filterSource : Option String) (st : List Record) : List Record :=
  (sortLe (keyLe (fun r => dist2 (embed query) (embed r.document)))
    (match filterSource with
      | none => st
      | some fp => st.filter
          (fun r => r.metadata.lookup "source" == some fp))).take k

/-- PGVectorManager.add_documents: sets the source metadata key to file_path
only when it is absent, then stores the batch in one call; the store assigns
internal ids that are not reflected in the metadata. -/
def add_documents (documents : List Doc) (file_path : String)
    (st : List Record) : List Record :=
  st ++ documents.map (fun d =>
    Record.mk "" d.page_content
      (if (d.metadata.lookup "source").isSome then d.metadata
       else dictSet "source" file_path d.metadata))

/-- PGVectorManager.get_all_documents: similarity_search with a one-space
probe and k = 10000, then ids synthesized as source-i from each returned
document's source metadata (default unknown) and its position i in the
returned list; returns the parallel id, metadata and document lists. -/
def get_all_documents (embed : String → List Int) (st : List Record) :
    List String × List (List (String × String)) × List String :=
  (((similarity_search embed " " 10000 none st).enum).map (fun p =>
      (p.2.metadata.lookup "source").getD "unknown" ++ "-" ++ toString p.1),
   (similarity_search embed " " 10000 none st).map Record.metadata,
   (similarity_search embed " " 10000 none st).map Record.document)

/-- PGVectorManager.delete_documents: re-queries for records whose source
matches, collects the truthy id metadata values of those records, and
deletes by those ids; when no id metadata is found it only prints a message
and leaves the store unchanged. -/
def delete_documents (embed : String → List Int) (file_path : String)
    (st : List Record) : List Record :=
  let docs_to_delete := similarity_search embed "" 10000 (some file_path) st
  let ids_to_delete := (docs_to_delete.filterMap
    (fun r => r.metadata.lookup "id")).filter (fun s => !(s == ""))
  if ids_to_delete.isEmpty then st
  else st.filter (fun r => !(ids_to_delete.contains r.id))

/-- PGVectorManager.document_exists: similarity_search with the source
filter and k = 1, true iff non-empty. -/
def document_exists (embed : String → List Int) (file_path : String)
    (st : List Record) : Bool :=
  !(similarity_search embed "" 1 (some file_path) st).isEmpty

/-- PGVectorManager.query_documents: similarity_search with no filter. -/
def query_documents (embed : String → List Int) (query_text : String)
    (n_results : Nat) (st : List Record) : List Record :=
  similarity_search embed query_text n_results none st

end PGVectorManager

/-- The DB_BACKEND selector of app/db_manager.DatabaseManager. -/
inductive Backend
  | chroma
  | pgvector
deriving DecidableEq

/-- DatabaseManager.add_documents dispatch. -/
def dbAddDocuments (b : Backend) (documents : List Doc) (file_path : String)
    (st : List Record) : List Record :=
  match b with
  | Backend.chroma => ChromaDBManager.add_documents documents file_path st
  | Backend.pgvector => PGVectorManager.add_documents documents file_path st

/-- DatabaseManager.document_exists dispatch. -/
def dbDocumentExists (b : Backend) (embed : String → List Int)
    (file_path : String) (st : List Record) : Bool :=
  match b with
  | Backend.chroma => ChromaDBManager.document_exists file_path st
  | Backend.pgvector => PGVectorManager.document_exists embed file_path st

/-- DatabaseManager.delete_documents dispatch. -/
def dbDeleteDocuments (b : Backend) (embed : String → List Int)
    (file_path : String) (st : List Record) : List Record :=
  match b with
  | Backend.chroma => ChromaDBManager.delete_documents file_path st
  | Backend.pgvector => PGVectorManager.delete_documents embed file_path st

/-- DatabaseManager.query_documents dispatch. -/
def dbQueryDocuments (b : Backend) (embed : String → List Int)
    (query_text : String) (n_results : Nat) (st : List Record) : List Record :=
  match b with
  | Backend.chroma => ChromaDBManager.query_documents embed query_text n_results st
  | Backend.pgvector => PGVectorManager.query_documents embed query_text n_results st

/-- The id list returned by DatabaseManager.get_all_documents; its length is
the record count reported to the caller. -/
def dbGetAllIds (b : Backend) (embed : String → List Int)
    (st : List Record) : List String :=
  match b with
  | Backend.chroma => (ChromaDBManager.get_all_documents st).map Record.id
  | Backend.pgvector => (PGVectorManager.get_all_documents embed st).1

/-- Outcome of app/database.add_file_to_db, one constructor per returned
message: Error File not found / Warning already in the database Skipping
upload / Successfully added / An error occurred. -/
inductive IngestOutcome
  | fileNotFound
  | alreadyPresent
  | added
  | failed
deriving DecidableEq

/-- app/database.add_file_to_db: checks os.path.exists (fsExists), then
document_exists, then loads and splits the file (load models PyPDFLoader
followed by RecursiveCharacterTextSplitter, with none modelling a raised
exception that the source catches), sets the source metadata of every chunk
to file_path (source line 30), and stores the batch with add_documents. -/
def add_file_to_db (b : Backend) (embed : String → List Int)
    (fsExists : String → Bool) (load : String → Option (List Doc))
    (file_path : String) (st : List Record) : IngestOutcome × List Record :=
  if !(fsExists file_path) then (IngestOutcome.fileNotFound, st)
  else if dbDocumentExists b embed file_path st then (IngestOutcome.alreadyPresent, st)
  else
    match load file_path with
    | none => (IngestOutcome.failed, st)
    | some chunks =>
      (IngestOutcome.added,
        dbAddDocuments b
          (chunks.map (fun d => Doc.mk d.page_content (dictSet "source" file_path d.metadata)))
          file_path st)

/-- app/database.query_db: passes the query text straight through to
DatabaseManager.query_documents with no validation. -/
def query_db (b : Backend) (embed : String → List Int) (query_text : String)
    (n_results : Nat) (st : List Record) : List Record :=
  dbQueryDocuments b embed query_text n_results st

/-- app/database.remove_file_from_db: delegates to delete_documents and
reports success unconditionally. -/
def remove_file_from_db (b : Backend) (embed : String → List Int)
    (file_path : String) (st : List Record) : List Record :=
  dbDeleteDocuments b embed file_path st

/-!
The rag_builder query paths. query_pgvector issues one SQL statement:
SELECT source, content, embedding to probe distance AS distance FROM
documents WHERE library_name and version match ORDER BY distance LIMIT k.
SQL leaves the relative order of equal-distance rows unspecified because the
query has no secondary sort key, so the result is modelled as a relation:
any k-prefix of any distance-sorted permutation of the matching rows.
query_faiss delegates to faiss IndexFlatL2.search and prints via
print_results, which skips the negative index padding slots. Distances are
stated as squared Euclidean distance, order-equivalent to the backend
metrics.
-/

/-- A row of the documents table created by rag_builder.store_pgvector. -/
structure PGRow where
  library_name : String
  version : String
  source : String
  content : String
  embedding : List Int
deriving DecidableEq

/-- The WHERE clause of rag_builder.query_pgvector. -/
def matchRows (rows : List PGRow) (lib ver : String) : List PGRow :=
  rows.filter (fun r => r.library_name == lib && r.version == ver)

/-- SQL semantics of rag_builder.query_pgvector: res is a possible result of
ORDER BY distance LIMIT k, that is the first k rows of some distance-sorted
permutation of the matching rows, each projected to source, content and
distance. Equal-distance rows may come back in any order. -/
def pgQueryResult (rows : List PGRow) (lib ver : String) (probe : List Int)
    (k : Nat) (res : List (String × String × Int)) : Prop :=
  ∃ perm : List PGRow,
    perm.Perm (matchRows rows lib ver)
    ∧ List.Pairwise
        (fun a b => dist2 probe a.embedding ≤ dist2 probe b.embedding) perm
    ∧ res = (perm.take k).map
        (fun r => (r.source, r.content, dist2 probe r.embedding))

/-- The behavior the claim asserts, written from the words of the spec:
nearest first and ties broken by insertion order, that is the stable sort of
the matching rows by distance, truncated to k. -/
def pgQueryClaimed (rows : List PGRow) (lib ver : String) (probe : List Int)
    (k : Nat) : List (String × String × Int) :=
  ((sortLe (keyLe (fun r => dist2 probe r.embedding))
      (matchRows rows lib ver)).take k).map
    (fun r => (r.source, r.content, dist2 probe r.embedding))

/-- Modelled documented behavior of faiss IndexFlatL2.search over base
vectors in insertion order: k result slots holding the min(k, n) nearest
(squared distance, insertion index) pairs ascending by distance, padded with
index -1 slots when k exceeds the number of stored vectors. -/
def faissSearch (base : List (List Int)) (q : List Int) (k : Nat) :
    List (Int × Int) :=
  (sortLe (keyLe (fun x => x.1))
      (base.enum.map (fun p => (dist2 q p.2, (p.1 : Int))))).take k
    ++ List.replicate (k - base.length) ((0 : Int), (-1 : Int))

/-- rag_builder.print_results: walks the returned slots, skips every slot
with a negative index (the faiss padding), and prints the distance, the
source metadata and the chunk content of each remaining slot; modelled as
the list of printed entries. -/
def print_results (slots : List (Int × Int)) (chunks : List String)
    (metadatas : List (List (String × String))) : List (Int × String × String) :=
  slots.filterMap (fun p =>
    if 0 ≤ p.2 then
      some (p.1, ((metadatas.getD p.2.toNat []).lookup "source").getD "",
        chunks.getD p.2.toNat "")
    else none)

/-- A concrete embedding function used to instantiate witnesses and
counterexamples: the token count and total length of the text. -/
def demoEmbed (s : String) : List Int :=
  [((pyWords s).length : Int), (s.length : Int)]

theorem bnot_isEmpty_of_mem {α : Type} (l : List α) (x : α) (hx : x ∈ l) :
    (!l.isEmpty) = true := by
  cases l
  · simp at hx
  · rfl

theorem bnot_isEmpty_of_pos {α : Type} (l : List α) (h : 0 < l.length) :
    (!l.isEmpty) = true := by
  cases l
  · simp at h
  · rfl

theorem lookup_source_single (fp : String) :
    (([("source", fp)] : List (String × String)).lookup "source") = some fp := by
  rw [lookup_cons, if_pos rfl]

/-- After storing a non-empty batch whose documents all carry source
metadata equal to file_path, document_exists reports true on either
backend. -/
theorem exists_after_ingest_add (b : Backend) (embed : String → List Int)
    (file_path : String) (st : List Record) (documents : List Doc)
    (hne : ¬ documents = [])
    (hsrc : ∀ d ∈ documents, d.metadata.lookup "source" = some file_path) :
    dbDocumentExists b embed file_path
      (dbAddDocuments b documents file_path st) = true := by
  obtain ⟨c, cs, hc⟩ := List.exists_cons_of_ne_nil hne
  cases b
  · simp only [dbDocumentExists, dbAddDocuments, ChromaDBManager.add_documents,
      ChromaDBManager.document_exists]
    have hlen : 0 < (documents.enum.map (fun p =>
        Record.mk (file_path ++ "-" ++ toString p.1) p.2.page_content
          [("source", file_path)])).length := by
      rw [List.length_map, List.enum_length, hc]
      simp
    obtain ⟨r, rs, hr⟩ := List.exists_cons_of_ne_nil
      (List.ne_nil_of_length_pos hlen)
    have hmemr : r ∈ documents.enum.map (fun p =>
        Record.mk (file_path ++ "-" ++ toString p.1) p.2.page_content
          [("source", file_path)]) := by
      rw [hr]
      exact List.mem_cons_self r rs
    obtain ⟨p, _, hp⟩ := List.mem_map.1 hmemr
    apply bnot_isEmpty_of_mem _ r
    apply List.mem_filter.2
    refine ⟨List.mem_append_right st hmemr, ?_⟩
    rw [← hp]
    simp [lookup_source_single]
  · simp only [dbDocumentExists, dbAddDocuments, PGVectorManager.add_documents,
      PGVectorManager.document_exists, PGVectorManager.similarity_search]
    have hcmem : c ∈ documents := by
      rw [hc]
      exact List.mem_cons_self c cs
    have hclook : c.metadata.lookup "source" = some file_path := hsrc c hcmem
    have hrmem : Record.mk "" c.page_content
        (if (c.metadata.lookup "source").isSome then c.metadata
         else dictSet "source" file_path c.metadata)
      ∈ st ++ documents.map (fun d =>
        Record.mk "" d.page_content
          (if (d.metadata.lookup "source").isSome then d.metadata
           else dictSet "source" file_path d.metadata)) :=
      List.mem_append_right st (List.mem_map.2 ⟨c, hcmem, rfl⟩)
    have hfilter : Record.mk "" c.page_content
        (if (c.metadata.lookup "source").isSome then c.metadata
         else dictSet "source" file_path c.metadata)
      ∈ (st ++ documents.map (fun d =>
          Record.mk "" d.page_content
            (if (d.metadata.lookup "source").isSome then d.metadata
             else dictSet "source" file_path d.metadata))).filter
        (fun r => r.metadata.lookup "source" == some file_path) := by
      apply List.mem_filter.2
      refine ⟨hrmem, ?_⟩
      have hcond : (c.metadata.lookup "source").isSome = true := by
        rw [hclook]
        rfl
      simp only [if_pos hcond]
      simp [hclook]
    apply bnot_isEmpty_of_pos
    rw [List.length_take, sortLe_length]
    have h1 : 0 < ((st ++ documents.map (fun d =>
        Record.mk "" d.page_content
          (if (d.metadata.lookup "source").isSome then d.metadata
           else dictSet "source" file_path d.metadata))).filter
        (fun r => r.metadata.lookup "source" == some file_path)).length :=
      List.length_pos.2 (List.ne_nil_of_mem hfilter)
    omega

/-- C1 (amended): for a source not yet present whose loaded document yields
at least one chunk, ingesting twice yields Added then AlreadyPresent, the
second call leaves the store unchanged, and the get_all record count is
unchanged by the second call. The non-empty chunk hypothesis is forced by
the counterexample ingest_twice_added_counterexample. -/
theorem ingest_idempotent_chunks (b : Backend) (embed : String → List Int)
    (fsExists : String → Bool) (load : String → Option (List Doc))
    (file_path : String) (st : List Record) (chunks : List Doc)
    (h1 : fsExists file_path = true)
    (h2 : dbDocumentExists b embed file_path st = false)
    (h3 : load file_path = some chunks)
    (h4 : ¬ chunks = []) :
    (add_file_to_db b embed fsExists load file_path st).1 = IngestOutcome.added
    ∧ (add_file_to_db b embed fsExists load file_path
        (add_file_to_db b embed fsExists load file_path st).2).1
      = IngestOutcome.alreadyPresent
    ∧ (add_file_to_db b embed fsExists load file_path
        (add_file_to_db b embed fsExists load file_path st).2).2
      = (add_file_to_db b embed fsExists load file_path st).2
    ∧ (dbGetAllIds b embed (add_file_to_db b embed fsExists load file_path
        (add_file_to_db b embed fsExists load file_path st).2).2).length
      = (dbGetAllIds b embed
          (add_file_to_db b embed fsExists load file_path st).2).length := by
  have hrun1 : add_file_to_db b embed fsExists load file_path st
      = (IngestOutcome.added, dbAddDocuments b
          (chunks.map (fun d =>
            Doc.mk d.page_content (dictSet "source" file_path d.metadata)))
          file_path st) := by
    simp [add_file_to_db, h1, h2, h3]
  have hne2 : ¬ (chunks.map (fun d =>
      Doc.mk d.page_content (dictSet "source" file_path d.metadata))) = [] := by
    simpa using h4
  have hsrc : ∀ d ∈ chunks.map (fun d =>
      Doc.mk d.page_content (dictSet "source" file_path d.metadata)),
      d.metadata.lookup "source" = some file_path := by
    intro d hd
    obtain ⟨d0, _, hd0⟩ := List.mem_map.1 hd
    rw [← hd0]
    exact lookup_dictSet "source" file_path d0.metadata
  have hex := exists_after_ingest_add b embed file_path st _ hne2 hsrc
  have hrun2 : add_file_to_db b embed fsExists load file_path
      (add_file_to_db b embed fsExists load file_path st).2
      = (IngestOutcome.alreadyPresent,
         (add_file_to_db b embed fsExists load file_path st).2) := by
    rw [hrun1]
    simp [add_file_to_db, h1, hex]
  refine ⟨by rw [hrun1], by rw [hrun2], by rw [hrun2], by rw [hrun2]⟩

/-- Witness for ingest_idempotent_chunks: a fresh chroma store, an existing
file and a one-chunk document. -/
theorem ingest_idempotent_chunks_witness :
    (add_file_to_db Backend.chroma demoEmbed (fun _ => true)
      (fun _ => some [Doc.mk "hello" []]) "f.pdf" []).1 = IngestOutcome.added
    ∧ (add_file_to_db Backend.chroma demoEmbed (fun _ => true)
        (fun _ => some [Doc.mk "hello" []]) "f.pdf"
        (add_file_to_db Backend.chroma demoEmbed (fun _ => true)
          (fun _ => some [Doc.mk "hello" []]) "f.pdf" []).2).1
      = IngestOutcome.alreadyPresent := by
  have h := ingest_idempotent_chunks Backend.chroma demoEmbed (fun _ => true)
    (fun _ => some [Doc.mk "hello" []]) "f.pdf" [] [Doc.mk "hello" []]
    rfl (by decide) rfl (by decide)
  exact ⟨h.1, h.2.1⟩

/-- Counterexample to C1 as stated: when the loaded document yields zero
chunks (for example a PDF with no extractable text) nothing is stored, the
existence check stays false, and the second ingest call returns Added
again instead of AlreadyPresent. -/
theorem ingest_twice_added_counterexample :
    (add_file_to_db Backend.chroma demoEmbed (fun _ => true)
      (fun _ => some []) "f.pdf" []).1 = IngestOutcome.added
    ∧ (add_file_to_db Backend.chroma demoEmbed (fun _ => true)
        (fun _ => some []) "f.pdf"
        (add_file_to_db Backend.chroma demoEmbed (fun _ => true)
          (fun _ => some []) "f.pdf" []).2).1 = IngestOutcome.added
    ∧ ¬ IngestOutcome.added = IngestOutcome.alreadyPresent := by
  refine ⟨by decide, by decide, by decide⟩

/-- A concrete stored record used by witnesses and counterexamples. -/
def demoRecord : Record :=
  Record.mk "f.pdf-0" "hello" [("source", "f.pdf")]

/-- C2: the claim matches the intended contract but the PGVector variant
violates it. Records stored by PGVectorManager.add_documents carry no id
metadata key, so delete_documents finds no ids to delete, prints a message,
reports success, and leaves the store unchanged: after the delete,
document_exists is still true for the source. The Chroma variant deletes by
metadata filter and satisfies the claim on the same input. -/
theorem pg_delete_silently_noops :
    PGVectorManager.delete_documents demoEmbed "doc1"
        (PGVectorManager.add_documents [Doc.mk "hello" []] "doc1" [])
      = PGVectorManager.add_documents [Doc.mk "hello" []] "doc1" []
    ∧ PGVectorManager.document_exists demoEmbed "doc1"
        (PGVectorManager.delete_documents demoEmbed "doc1"
          (PGVectorManager.add_documents [Doc.mk "hello" []] "doc1" []))
      = true
    ∧ ChromaDBManager.document_exists "doc1"
        (ChromaDBManager.delete_documents "doc1"
          (ChromaDBManager.add_documents [Doc.mk "hello" []] "doc1" []))
      = false := by
  refine ⟨by decide, by decide, by decide⟩

/-- Counterexample to C7 as stated: Chroma accepts batched writes in one
collection.add call, but ChromaDBManager.add_documents issues one call per
record, so a failure after the first of three adds leaves exactly one
record for the source in the collection: a partial write observable through
the source filter. -/
theorem add_documents_partial_counterexample :
    ((ChromaDBManager.add_documents_fail
        [Doc.mk "p1" [], Doc.mk "p2" [], Doc.mk "p3" []] "f.pdf" 1 []).filter
        (fun r => r.metadata.lookup "source" == some "f.pdf")).length = 1
    ∧ ([Doc.mk "p1" [], Doc.mk "p2" [], Doc.mk "p3" []] : List Doc).length = 3
    ∧ ChromaDBManager.document_exists "f.pdf"
        (ChromaDBManager.add_documents_fail
          [Doc.mk "p1" [], Doc.mk "p2" [], Doc.mk "p3" []] "f.pdf" 1 []) = true
    ∧ (1 : Nat) ≠ 0
    ∧ (1 : Nat) ≠ 3 := by
  refine ⟨by decide, by decide, by decide, by decide, by decide⟩

/-- C7 (amended): a failure after j of the per-record add calls leaves
exactly the already-added prefix in the collection; every record added
before the failure carries the source metadata, so the caller can detect
the partial write, and delete_documents on the source restores exactly the
state that deleting from the pre-failure store would give, enabling the
cleanup-and-retry path the spec prescribes. -/
theorem add_documents_fail_cleanup (documents : List Doc) (file_path : String)
    (j : Nat) (st : List Record) :
    (∀ r ∈ ChromaDBManager.add_documents_fail documents file_path j st,
      r ∈ st ∨ r.metadata.lookup "source" = some file_path)
    ∧ ChromaDBManager.delete_documents file_path
        (ChromaDBManager.add_documents_fail documents file_path j st)
      = ChromaDBManager.delete_documents file_path st := by
  constructor
  · intro r hr
    rcases List.mem_append.1 hr with h | h
    · exact Or.inl h
    · right
      obtain ⟨p, _, hp⟩ := List.mem_map.1 h
      rw [← hp]
      exact lookup_source_single file_path
  · simp only [ChromaDBManager.delete_documents, ChromaDBManager.add_documents_fail]
    rw [List.filter_append]
    have hnil : ((documents.take j).enum.map (fun p =>
        Record.mk (file_path ++ "-" ++ toString p.1) p.2.page_content
          [("source", file_path)])).filter
        (fun r => !(r.metadata.lookup "source" == some file_path)) = [] := by
      apply List.filter_eq_nil_iff.2
      intro r hr
      obtain ⟨p, _, hp⟩ := List.mem_map.1 hr
      rw [← hp]
      simp [lookup_source_single]
    rw [hnil, List.append_nil]

/-- Counterexample to C8 as stated: query_db forwards an empty query_text to
the backend with no validation; on a store holding one record the empty
query returns that record rather than failing, and no InvalidQuery error
exists anywhere in the source. -/
theorem query_db_empty_returns_results :
    query_db Backend.chroma demoEmbed "" 2 [demoRecord] = [demoRecord]
    ∧ ¬ query_db Backend.chroma demoEmbed "" 2 [demoRecord] = [] := by
  refine ⟨by decide, by decide⟩

/-- C8 (amended): query_db performs no validation of query_text; an empty
query is embedded and ranked like any other string and returns the clamped
number of results on both backends, never an error. -/
theorem query_db_empty_no_validation (embed : String → List Int) (n : Nat)
    (st : List Record) :
    (query_db Backend.chroma embed "" n st).length = min n st.length
    ∧ (query_db Backend.pgvector embed "" n st).length = min n st.length := by
  constructor
  · simp only [query_db, dbQueryDocuments, ChromaDBManager.query_documents]
    rw [List.length_take, sortLe_length]
  · simp only [query_db, dbQueryDocuments, PGVectorManager.query_documents,
      PGVectorManager.similarity_search]
    rw [List.length_take, sortLe_length]

/-- Every record reachable through a backend store operation either was
already stored or was created by the ingestion with source metadata equal to
the ingested path. -/
theorem mem_dbAdd (b : Backend) (documents : List Doc) (file_path : String)
    (st : List Record) (r : Record)
    (hr : r ∈ dbAddDocuments b documents file_path st)
    (hsrc : ∀ d ∈ documents, d.metadata.lookup "source" = some file_path) :
    r ∈ st ∨ r.metadata.lookup "source" = some file_path := by
  cases b
  · rcases List.mem_append.1 hr with h | h
    · exact Or.inl h
    · right
      obtain ⟨p, _, hp⟩ := List.mem_map.1 h
      rw [← hp]
      exact lookup_source_single file_path
  · rcases List.mem_append.1 hr with h | h
    · exact Or.inl h
    · right
      obtain ⟨d, hd, hp⟩ := List.mem_map.1 h
      rw [← hp]
      have hcond : (d.metadata.lookup "source").isSome = true := by
        rw [hsrc d hd]
        rfl
      simp only [if_pos hcond]
      exact hsrc d hd

theorem mem_dbDelete (b : Backend) (embed : String → List Int)
    (file_path : String) (st : List Record) (r : Record)
    (hr : r ∈ dbDeleteDocuments b embed file_path st) : r ∈ st := by
  cases b
  · exact (List.mem_filter.1 hr).1
  · simp only [dbDeleteDocuments, PGVectorManager.delete_documents] at hr
    split at hr
    · exact hr
    · exact (List.mem_filter.1 hr).1

theorem mem_dbQuery (b : Backend) (embed : String → List Int)
    (query_text : String) (n_results : Nat) (st : List Record) (r : Record)
    (hr : r ∈ dbQueryDocuments b embed query_text n_results st) : r ∈ st := by
  cases b
  · exact (sortLe_mem _ r _).1 (List.mem_of_mem_take hr)
  · simp only [dbQueryDocuments, PGVectorManager.query_documents,
      PGVectorManager.similarity_search] at hr
    exact (sortLe_mem _ r _).1 (List.mem_of_mem_take hr)

/-- C9: every record persisted by the ingestion pipeline carries its source
id under the metadata key source, equal to the ingested file path, on both
backend variants (line 30 of app/database.py sets it before the store call,
the Chroma variant writes it explicitly, and the PGVector variant keeps it
because it is already present); the read and delete operations return only
records that were stored as-is and never alter metadata, queries do not
modify the store, and deletion only removes whole records. -/
theorem ingest_source_metadata (b : Backend) (embed : String → List Int)
    (fsExists : String → Bool) (load : String → Option (List Doc))
    (file_path : String) (st : List Record) :
    (∀ r ∈ (add_file_to_db b embed fsExists load file_path st).2,
      r ∈ st ∨ r.metadata.lookup "source" = some file_path)
    ∧ (∀ fp, ∀ r ∈ dbDeleteDocuments b embed fp st, r ∈ st)
    ∧ (∀ q n, ∀ r ∈ dbQueryDocuments b embed q n st, r ∈ st) := by
  refine ⟨?_, ?_, ?_⟩
  · intro r hr
    by_cases hfs : fsExists file_path = true
    · by_cases hex : dbDocumentExists b embed file_path st = true
      · simp only [add_file_to_db, hfs, hex] at hr
        simp at hr
        exact Or.inl hr
      · have hex2 : dbDocumentExists b embed file_path st = false :=
          Bool.not_eq_true _ ▸ hex
        cases hload : load file_path with
        | none =>
          simp only [add_file_to_db, hfs, hex2, hload] at hr
          simp at hr
          exact Or.inl hr
        | some chunks =>
          have hrun : (add_file_to_db b embed fsExists load file_path st).2
              = dbAddDocuments b
                  (chunks.map (fun d =>
                    Doc.mk d.page_content (dictSet "source" file_path d.metadata)))
                  file_path st := by
            simp [add_file_to_db, hfs, hex2, hload]
          rw [hrun] at hr
          apply mem_dbAdd b _ file_path st r hr
          intro d hd
          obtain ⟨d0, _, hd0⟩ := List.mem_map.1 hd
          rw [← hd0]
          exact lookup_dictSet "source" file_path d0.metadata
    · have hfs2 : fsExists file_path = false := Bool.not_eq_true _ ▸ hfs
      simp only [add_file_to_db, hfs2] at hr
      simp at hr
      exact Or.inl hr
  · intro fp r hr
    exact mem_dbDelete b embed fp st r hr
  · intro q n r hr
    exact mem_dbQuery b embed q n st r hr

/-- Counterexample to C5 as stated: two rows at identical distance from the
probe. The SQL semantics of query_pgvector (ORDER BY distance with no
secondary key) admits the result that lists the later-inserted row first,
which differs from the stable insertion-order result the claim demands, so
tie-breaking by insertion order is not guaranteed by the code. -/
theorem pg_query_tie_counterexample :
    pgQueryResult
        [PGRow.mk "lib" "1" "s1" "c1" [0], PGRow.mk "lib" "1" "s2" "c2" [0]]
        "lib" "1" [0] 2 [("s2", "c2", 0), ("s1", "c1", 0)]
    ∧ pgQueryClaimed
        [PGRow.mk "lib" "1" "s1" "c1" [0], PGRow.mk "lib" "1" "s2" "c2" [0]]
        "lib" "1" [0] 2 = [("s1", "c1", 0), ("s2", "c2", 0)]
    ∧ ¬ ([("s2", "c2", (0 : Int)), ("s1", "c1", 0)]
        : List (String × String × Int)) = [("s1", "c1", 0), ("s2", "c2", 0)] := by
  refine ⟨⟨[PGRow.mk "lib" "1" "s2" "c2" [0], PGRow.mk "lib" "1" "s1" "c1" [0]],
    by decide, by decide, by decide⟩, by decide, by decide⟩

/-- C5 (amended): every result the query_pgvector statement can return is
ascending by distance (closest first), has exactly min k n rows for n
matching rows, and is distance-complete: any matching row strictly closer
than some returned row is itself returned. The order among equal-distance
rows is arbitrary, not insertion order, which is the correction to the
original claim. -/
theorem pg_query_ranked (rows : List PGRow) (lib ver : String)
    (probe : List Int) (k : Nat) (res : List (String × String × Int))
    (h : pgQueryResult rows lib ver probe k res) :
    List.Pairwise (fun a b => a.2.2 ≤ b.2.2) res
    ∧ res.length = min k (matchRows rows lib ver).length
    ∧ ∀ r ∈ matchRows rows lib ver, ∀ x ∈ res,
        dist2 probe r.embedding < x.2.2 →
        (r.source, r.content, dist2 probe r.embedding) ∈ res := by
  obtain ⟨perm, hperm, hsort, hres⟩ := h
  subst hres
  refine ⟨?_, ?_, ?_⟩
  · exact (hsort.sublist (List.take_sublist k perm)).map _ (fun a b hab => hab)
  · rw [List.length_map, List.length_take, hperm.length_eq]
  · intro r hrm x hx hlt
    have hrp : r ∈ perm := hperm.mem_iff.2 hrm
    have hsplit : perm.take k ++ perm.drop k = perm := List.take_append_drop k perm
    rcases List.mem_append.1 (by rw [hsplit]; exact hrp) with hin | hout
    · exact List.mem_map.2 ⟨r, hin, rfl⟩
    · exfalso
      obtain ⟨a, ha, hax⟩ := List.mem_map.1 hx
      have hpa : List.Pairwise
          (fun a b => dist2 probe a.embedding ≤ dist2 probe b.embedding)
          (perm.take k ++ perm.drop k) := by
        rw [hsplit]
        exact hsort
      have hle := (List.pairwise_append.1 hpa).2.2 a ha r hout
      rw [← hax] at hlt
      exact absurd hle (not_le_of_lt hlt)

/-- Witness for pg_query_ranked at a two-row table with distances 0 and 4
from the probe and k = 1. -/
theorem pg_query_ranked_witness :
    List.Pairwise (fun a b : String × String × Int => a.2.2 ≤ b.2.2)
      [("s1", "c1", (0 : Int))]
    ∧ ([("s1", "c1", (0 : Int))] : List (String × String × Int)).length
      = min 1 (matchRows [PGRow.mk "l" "1" "s1" "c1" [0],
          PGRow.mk "l" "1" "s2" "c2" [2]] "l" "1").length := by
  have h := pg_query_ranked
    [PGRow.mk "l" "1" "s1" "c1" [0], PGRow.mk "l" "1" "s2" "c2" [2]]
    "l" "1" [0] 1 [("s1", "c1", 0)]
    ⟨[PGRow.mk "l" "1" "s1" "c1" [0], PGRow.mk "l" "1" "s2" "c2" [2]],
      by decide, by decide, by decide⟩
  exact ⟨h.1, h.2.1⟩

theorem filterMap_all_some {α β : Type} (f : α → Option β) (g : α → β)
    (l : List α) (h : ∀ a ∈ l, f a = some (g a)) :
    l.filterMap f = l.map g := by
  induction l with
  | nil => rfl
  | cons a t ih =>
    rw [List.filterMap_cons_some (h a (List.mem_cons_self a t)), List.map_cons,
      ih (fun x hx => h x (List.mem_cons_of_mem a hx))]

/-- C6: when k exceeds the stored record count, queries return exactly the
available records and never fail. On the flat FAISS path the search pads
its k slots with index -1 entries and print_results (source lines 253-255)
skips them, so exactly the n stored records are printed, each exactly once
(the kept indices are a permutation of all insertion indices); the Chroma
retrieval clamps to the record count; an empty collection prints nothing. -/
theorem query_k_clamped (base : List (List Int)) (chunks : List String)
    (metadatas : List (List (String × String))) (q : List Int) (k : Nat)
    (embed : String → List Int) (query_text : String) (st : List Record)
    (hk : base.length < k) (hk2 : st.length < k) :
    (print_results (faissSearch base q k) chunks metadatas).length = base.length
    ∧ ((faissSearch base q k).filterMap
        (fun p => if 0 ≤ p.2 then some p.2 else none)).Perm
      ((List.range base.length).map Int.ofNat)
    ∧ (ChromaDBManager.query_documents embed query_text k st).length = st.length
    ∧ (base = [] → print_results (faissSearch base q k) chunks metadatas = []) := by
  have hplen : (base.enum.map (fun p => (dist2 q p.2, (p.1 : Int)))).length
      = base.length := by
    rw [List.length_map, List.enum_length]
  have hslen : (sortLe (keyLe (fun x : Int × Int => x.1))
      (base.enum.map (fun p => (dist2 q p.2, (p.1 : Int))))).length
      = base.length := by
    rw [sortLe_length, hplen]
  have htake : (sortLe (keyLe (fun x : Int × Int => x.1))
      (base.enum.map (fun p => (dist2 q p.2, (p.1 : Int))))).take k
      = sortLe (keyLe (fun x : Int × Int => x.1))
          (base.enum.map (fun p => (dist2 q p.2, (p.1 : Int)))) :=
    List.take_of_length_le (by omega)
  have hfs : faissSearch base q k
      = sortLe (keyLe (fun x : Int × Int => x.1))
          (base.enum.map (fun p => (dist2 q p.2, (p.1 : Int))))
        ++ List.replicate (k - base.length) ((0 : Int), (-1 : Int)) := by
    rw [faissSearch, htake]
  have hall : ∀ p ∈ sortLe (keyLe (fun x : Int × Int => x.1))
      (base.enum.map (fun p => (dist2 q p.2, (p.1 : Int)))), 0 ≤ p.2 := by
    intro p hp
    have hp2 : p ∈ base.enum.map (fun p => (dist2 q p.2, (p.1 : Int))) :=
      (sortLe_mem _ p _).1 hp
    obtain ⟨e, _, he⟩ := List.mem_map.1 hp2
    rw [← he]
    exact Int.ofNat_nonneg e.1
  have hpadPrint : (List.replicate (k - base.length)
      ((0 : Int), (-1 : Int))).filterMap (fun p =>
        if 0 ≤ p.2 then
          some (p.1, ((metadatas.getD p.2.toNat []).lookup "source").getD "",
            chunks.getD p.2.toNat "")
        else none) = [] := by
    apply List.filterMap_eq_nil_iff.2
    intro a ha
    rw [(List.mem_replicate.1 ha).2]
    rfl
  have hpadIdx : (List.replicate (k - base.length)
      ((0 : Int), (-1 : Int))).filterMap
        (fun p => if 0 ≤ p.2 then some p.2 else none) = [] := by
    apply List.filterMap_eq_nil_iff.2
    intro a ha
    rw [(List.mem_replicate.1 ha).2]
    rfl
  have hprint : print_results (faissSearch base q k) chunks metadatas
      = (sortLe (keyLe (fun x : Int × Int => x.1))
          (base.enum.map (fun p => (dist2 q p.2, (p.1 : Int))))).map
        (fun p => (p.1, ((metadatas.getD p.2.toNat []).lookup "source").getD "",
          chunks.getD p.2.toNat "")) := by
    rw [print_results, hfs, List.filterMap_append, hpadPrint, List.append_nil]
    apply filterMap_all_some
    intro p hp
    rw [if_pos (hall p hp)]
  refine ⟨?_, ?_, ?_, ?_⟩
  · rw [hprint, List.length_map, hslen]
  · rw [hfs, List.filterMap_append, hpadIdx, List.append_nil]
    rw [filterMap_all_some _ (fun p => p.2) _ (fun p hp => by rw [if_pos (hall p hp)])]
    have hmap : ((sortLe (keyLe (fun x : Int × Int => x.1))
        (base.enum.map (fun p => (dist2 q p.2, (p.1 : Int))))).map
          (fun p => p.2)).Perm
        ((base.enum.map (fun p => (dist2 q p.2, (p.1 : Int)))).map
          (fun p => p.2)) :=
      (sortLe_perm _ _).map _
    apply hmap.trans
    rw [List.map_map]
    have he : ((fun p : Int × Int => p.2) ∘
        (fun p : Nat × List Int => (dist2 q p.2, (p.1 : Int))))
        = (fun p : Nat × List Int => ((p.1 : Nat) : Int)) := rfl
    rw [he]
    have he2 : (fun p : Nat × List Int => ((p.1 : Nat) : Int))
        = Int.ofNat ∘ Prod.fst := rfl
    rw [he2, ← List.map_map, List.enum_map_fst]
  · simp only [ChromaDBManager.query_documents]
    rw [List.length_take, sortLe_length]
    omega
  · intro hbase
    have h0 : (print_results (faissSearch base q k) chunks metadatas).length = 0 := by
      rw [hprint, List.length_map, hslen, hbase]
      rfl
    exact List.length_eq_zero.1 h0

/-- Witness for query_k_clamped: two stored vectors, k = 5. -/
theorem query_k_clamped_witness :
    (print_results (faissSearch [[0], [3]] [0] 5)
      ["x", "y"] [[("source", "s")], [("source", "t")]]).length = 2
    ∧ (ChromaDBManager.query_documents demoEmbed "q" 5 [demoRecord]).length = 1 := by
  have h := query_k_clamped [[0], [3]] ["x", "y"]
    [[("source", "s")], [("source", "t")]] [0] 5 demoEmbed "q" [demoRecord]
    (by decide) (by decide)
  exact ⟨h.1, h.2.2.1⟩

/-- C10: the PGVector get_all_documents returns at most 10000 records (the
similarity search against the one-space probe is truncated at k = 10000, so
further records are silently omitted), and the id at every position i of
the returned id list is synthesized as the source metadata of the record
returned at position i (defaulting to unknown) followed by a dash and i:
positional fabrications, not the identifiers the records were stored under. -/
theorem pg_get_all_truncates (embed : String → List Int) (st : List Record) :
    ((PGVectorManager.get_all_documents embed st).1).length = min 10000 st.length
    ∧ ∀ (i : Nat), i < ((PGVectorManager.get_all_documents embed st).1).length →
        ((PGVectorManager.get_all_documents embed st).1).getD i ""
          = ((((PGVectorManager.get_all_documents embed st).2.1).getD i []).lookup
              "source").getD "unknown" ++ "-" ++ toString i := by
  constructor
  · simp only [PGVectorManager.get_all_documents]
    rw [List.length_map, List.enum_length]
    simp only [PGVectorManager.similarity_search]
    rw [List.length_take, sortLe_length]
  · intro i hi
    simp only [PGVectorManager.get_all_documents] at hi ⊢
    have hi2 : i < (PGVectorManager.similarity_search embed " " 10000 none st).length := by
      rw [List.length_map, List.enum_length] at hi
      exact hi
    have him : i < ((PGVectorManager.similarity_search embed " " 10000 none st).enum.map
        (fun p => (p.2.metadata.lookup "source").getD "unknown" ++ "-"
          ++ toString p.1)).length := by
      rw [List.length_map, List.enum_length]
      exact hi2
    have him2 : i < ((PGVectorManager.similarity_search embed " " 10000 none st).map
        Record.metadata).length := by
      rw [List.length_map]
      exact hi2
    rw [List.getD_eq_getElem _ _ him, List.getD_eq_getElem _ _ him2,
      List.getElem_map, List.getElem_map, List.getElem_enum]

/-- Witness for pg_get_all_truncates on a one-record store. -/
theorem pg_get_all_truncates_witness :
    ((PGVectorManager.get_all_documents demoEmbed [demoRecord]).1).length = 1
    ∧ ((PGVectorManager.get_all_documents demoEmbed [demoRecord]).1).getD 0 ""
      = "f.pdf-0" := by
  have h := pg_get_all_truncates demoEmbed [demoRecord]
  constructor
  · rw [h.1]
    decide
  · have h2 := h.2 0 (by rw [h.1]; decide)
    rw [h2]
    decide

/-- Witness for add_documents_fail_cleanup: a two-document batch failing
after one add. -/
theorem add_documents_fail_cleanup_witness :
    ChromaDBManager.delete_documents "f.pdf"
        (ChromaDBManager.add_documents_fail
          [Doc.mk "p1" [], Doc.mk "p2" []] "f.pdf" 1 [])
      = ChromaDBManager.delete_documents "f.pdf" []
    ∧ (Record.mk "f.pdf-0" "p1" [("source", "f.pdf")] ∈ ([] : List Record)
        ∨ (Record.mk "f.pdf-0" "p1" [("source", "f.pdf")]).metadata.lookup "source"
          = some "f.pdf") := by
  have h := add_documents_fail_cleanup [Doc.mk "p1" [], Doc.mk "p2" []] "f.pdf" 1 []
  exact ⟨h.2, h.1 (Record.mk "f.pdf-0" "p1" [("source", "f.pdf")]) (by decide)⟩

/-- Witness for ingest_source_metadata on a one-record chroma store. -/
theorem ingest_source_metadata_witness :
    (demoRecord ∈ ([demoRecord] : List Record)
      ∨ demoRecord.metadata.lookup "source" = some "f.pdf")
    ∧ demoRecord ∈ ([demoRecord] : List Record) := by
  have h := ingest_source_metadata Backend.chroma demoEmbed (fun _ => true)
    (fun _ => some [Doc.mk "hello" []]) "f.pdf" [demoRecord]
  exact ⟨h.1 demoRecord (by decide), h.2.1 "other" demoRecord (by decide)⟩
